import Mathlib

/-!
Verification of the Pigeonhole Sieve core against its specification.

The definitions below are a shallow embedding of the C sources:

* `sieve-binary.c`  — variable-length integer codec, jump-offset codec,
  binary-file header validation;
* `sieve.c` (interpreter part) — loop stack, loop limit, program jumps;
* `sieve-match-types.c` — the core match types, in particular the
  `:matches` match function;
* the store action implementation (`act_store_*`) and the duplicate-check
  utilities;
* the `:regex` match type (`mcht_regex_match`).

Machine integers of type `sieve_size_t` are modelled as `Nat` together
with an explicit reduction modulo `2 ^ 64` wherever the C code can
overflow.  Byte buffers are modelled as `List Nat`.
-/

namespace Pigeonhole

/-! ## Varint codec (`sieve-binary.c`, `sieve_binary_emit_integer` /
`sieve_binary_read_integer`)

`sieve_size_t` is the native word type; we model it as 64 bits wide.
-/

/-- Number of bits of `sieve_size_t` (`sizeof(sieve_size_t) * 8`). -/
def sieve_size_bits : Nat := 64

/-- `2 ^ 64`: arithmetic on `sieve_size_t` is reduced modulo this. -/
def sieve_size_modulus : Nat := 2 ^ 64

/-- Fuel-driven helper computing the big-endian base-128 digits of `x`;
the fuel is only a termination device and any `fuel ≥ x` gives the same
result (see `varintDigitsAux_eq`). -/
def varintDigitsGo : Nat → Nat → List Nat
  | _, 0 => []
  | 0, _ + 1 => []
  | fuel + 1, x + 1 => varintDigitsGo fuel ((x + 1) / 128) ++ [(x + 1) % 128]

/-- The big-endian base-128 digits of `x` produced by the emit loop
(`while (integer > 0) { buffer[bufpos--] = integer & 0x7F; integer >>= 7; }`),
most significant digit first; empty for `x = 0`. -/
def varintDigitsAux (x : Nat) : List Nat :=
  varintDigitsGo x x

theorem varintDigitsGo_eq_of_le {fuel fuel' x : Nat} (h : x ≤ fuel)
    (h' : x ≤ fuel') : varintDigitsGo fuel x = varintDigitsGo fuel' x := by
  induction fuel using Nat.strong_induction_on generalizing fuel' x with
  | _ fuel ih =>
    match fuel, fuel', x with
    | f, f', 0 => cases f <;> cases f' <;> rfl
    | 0, f', x + 1 => omega
    | f + 1, 0, x + 1 => omega
    | f + 1, f' + 1, x + 1 =>
      have hd : (x + 1) / 128 ≤ x := by
        have := Nat.div_le_self (x + 1) 128
        have := Nat.div_lt_self (Nat.succ_pos x) (by norm_num : 1 < 128)
        omega
      show varintDigitsGo f ((x + 1) / 128) ++ _ =
        varintDigitsGo f' ((x + 1) / 128) ++ _
      rw [ih f (Nat.lt_succ_self f) (by omega) (by omega : (x + 1) / 128 ≤ f')]

/-- The recurrence satisfied by the digit extraction: this is the shape of
the loop in `sieve_binary_emit_integer`. -/
theorem varintDigitsAux_eq (x : Nat) :
    varintDigitsAux x =
      if x = 0 then [] else varintDigitsAux (x / 128) ++ [x % 128] := by
  match x with
  | 0 => rfl
  | x + 1 =>
    have hd : (x + 1) / 128 ≤ x := by
      have := Nat.div_lt_self (Nat.succ_pos x) (by norm_num : 1 < 128)
      omega
    simp only [Nat.succ_ne_zero, if_false]
    show varintDigitsGo x ((x + 1) / 128) ++ _ =
      varintDigitsAux ((x + 1) / 128) ++ _
    unfold varintDigitsAux
    rw [varintDigitsGo_eq_of_le hd (Nat.le_refl _)]

/-- All base-128 digits of `x`, most significant first; the emit code always
writes at least the final digit `x & 0x7F`. -/
def varintDigits (x : Nat) : List Nat :=
  varintDigitsAux (x / 128) ++ [x % 128]

/-- Set the continuation bit `0x80` on every digit except the last one, as
the emit code does after filling the buffer. -/
def markContinuation : List Nat → List Nat
  | [] => []
  | [b] => [b]
  | b :: rest => (b ||| 128) :: markContinuation rest

/-- The staging buffer of the emit is
`char buffer[sizeof(sieve_size_t) + 1]`: nine bytes for the 64-bit
`sieve_size_t`. -/
def emit_buffer_size : Nat := 8 + 1

/-- `sieve_binary_emit_integer`: stage the base-128 digits of `integer`
(most significant first) in the fixed nine-byte buffer, set the
continuation bit on all but the last, and append them to the active block
buffer; returns the new buffer and the address (buffer offset) at which
the encoding starts.  When the value needs more digits than the staging
buffer holds, the digit loop in the C code decrements `bufpos` below zero
and writes before `buffer[0]` — undefined behaviour, modelled as
`none`. -/
def sieve_binary_emit_integer (buf : List Nat) (integer : Nat) :
    Option (List Nat × Nat) :=
  if (varintDigits integer).length ≤ emit_buffer_size then
    some (buf ++ markContinuation (varintDigits integer), buf.length)
  else
    none

/-- The read loop of `sieve_binary_read_integer`, operating on the bytes
from the current address onward.  Each continuation byte is ORed into the
accumulator and the accumulator is shifted left by 7 (truncated to the
width of `sieve_size_t`); the `bits` budget is decremented by 7 and a
continuation byte arriving with an exhausted budget is an error.  Running
out of bytes inside the loop makes the C code read past the buffer; the
model treats it as a failure. -/
def readIntegerLoop : List Nat → Nat → Int → Option (Nat × List Nat)
  | [], _, _ => none
  | b :: rest, acc, bits =>
    if b &&& 128 = 0 then
      some (acc ||| (b &&& 127), rest)
    else if bits > 0 then
      readIntegerLoop rest (((acc ||| (b &&& 127)) <<< 7) % sieve_size_modulus)
        (bits - 7)
    else
      none

/-- `sieve_binary_read_integer`: read a varint from the block code at
`address`; on success returns the value and the new address. -/
def sieve_binary_read_integer (code : List Nat) (address : Nat) :
    Option (Nat × Nat) :=
  match readIntegerLoop (code.drop address) 0 (sieve_size_bits : Int) with
  | some (v, rest) => some (v, code.length - rest.length)
  | none => none

/-! ### Bit-twiddling helper lemmas -/

theorem or128_eq_add {b : Nat} (hb : b < 128) : b ||| 128 = b + 128 := by
  have hb7 : b < 2 ^ 7 := lt_of_lt_of_eq hb (by norm_num)
  have h : (128 : Nat) = 2 ^ 7 * 1 := by norm_num
  calc b ||| 128 = 128 ||| b := Nat.lor_comm b 128
    _ = 2 ^ 7 * 1 ||| b := by rw [h]
    _ = 2 ^ 7 * 1 + b := (Nat.mul_add_lt_is_or hb7 1).symm
    _ = b + 128 := by ring

theorem mul128_or_eq_add (c : Nat) {d : Nat} (hd : d < 128) :
    128 * c ||| d = 128 * c + d := by
  have hd7 : d < 2 ^ 7 := lt_of_lt_of_eq hd (by norm_num)
  have h : (128 : Nat) * c = 2 ^ 7 * c := by norm_num
  rw [h, ← Nat.mul_add_lt_is_or hd7 c]

theorem and127_eq_mod (b : Nat) : b &&& 127 = b % 128 := by
  have := Nat.and_pow_two_sub_one_eq_mod b 7
  norm_num at this
  exact this

theorem terminal_and128 {b : Nat} (hb : b < 128) : b &&& 128 = 0 := by
  have h : (128 : Nat) = 2 ^ 7 := by norm_num
  rw [h, Nat.and_two_pow, Nat.testBit_lt_two_pow (by omega : b < 2 ^ 7)]
  rfl

theorem cont_and128 {b : Nat} (hb : b < 128) : (b ||| 128) &&& 128 ≠ 0 := by
  rw [or128_eq_add hb]
  have h : (128 : Nat) = 2 ^ 7 := by norm_num
  rw [h, Nat.and_two_pow]
  have hbit : (b + 2 ^ 7).testBit 7 = true := by
    have := Nat.testBit_mul_pow_two_add 1 (by omega : b < 2 ^ 7) 7
    simp only [Nat.mul_one, Nat.lt_irrefl, if_false] at this
    rw [Nat.add_comm b (2 ^ 7), this]
    simp [Nat.sub_self]
  rw [hbit]
  norm_num

/-! ### Varint digit facts -/

theorem varintDigitsAux_length_le {m k : Nat} (h : m < 128 ^ k) :
    (varintDigitsAux m).length ≤ k := by
  induction m using Nat.strong_induction_on generalizing k with
  | _ m ih =>
    rw [varintDigitsAux_eq]
    by_cases hm : m = 0
    · simp [hm]
    · simp only [hm, if_false, List.length_append, List.length_cons,
        List.length_nil]
      match k with
      | 0 =>
        have h1 : m < 1 := by simpa using h
        omega
      | k + 1 =>
        have hdiv : m / 128 < 128 ^ k := by
          rw [Nat.div_lt_iff_lt_mul (by norm_num : 0 < 128)]
          calc m < 128 ^ (k + 1) := h
            _ = 128 ^ k * 128 := by ring
        have := ih (m / 128)
          (Nat.div_lt_self (Nat.pos_of_ne_zero hm) (by norm_num)) hdiv
        omega

/-- Evaluating the read loop over the continuation bytes produced for `m`:
the accumulator `128 * c` absorbs the digits of `m` and is shifted once per
digit, and the loop continues into the remainder `l` of the input.  The
bound keeps every intermediate accumulator below `2 ^ 64`, and the bits
budget covers every digit. -/
theorem readIntegerLoop_cont (m c : Nat) (l : List Nat) (bits : Int)
    (hbound : 128 * c * 128 ^ (varintDigitsAux m).length + 128 * m <
      sieve_size_modulus)
    (hbits : 7 * ((varintDigitsAux m).length : Int) ≤ bits) :
    readIntegerLoop ((varintDigitsAux m).map (· ||| 128) ++ l) (128 * c)
        bits =
      readIntegerLoop l
        (128 * c * 128 ^ (varintDigitsAux m).length + 128 * m)
        (bits - 7 * (varintDigitsAux m).length) := by
  induction m using Nat.strong_induction_on generalizing c l bits with
  | _ m ih =>
    by_cases hm : m = 0
    · subst hm
      simp [varintDigitsAux_eq]
    · have hrec : varintDigitsAux m = varintDigitsAux (m / 128) ++ [m % 128] := by
        rw [varintDigitsAux_eq]; simp [hm]
      set g : Nat := (varintDigitsAux (m / 128)).length with hg
      have hlen : (varintDigitsAux m).length = g + 1 := by
        rw [hrec]; simp
      -- bound for the recursive call on m / 128
      have hstep : 128 * (m / 128) ≤ m := by
        have := Nat.div_mul_le_self m 128
        omega
      have hbound' : 128 * c * 128 ^ g + 128 * (m / 128) < sieve_size_modulus := by
        have h1 : (128 * c * 128 ^ g + 128 * (m / 128)) * 128 ≤
            128 * c * 128 ^ (g + 1) + 128 * m := by
          have : 128 * c * 128 ^ g * 128 = 128 * c * 128 ^ (g + 1) := by ring
          nlinarith [hstep]
        have h2 : 128 * c * 128 ^ g + 128 * (m / 128) ≤
            (128 * c * 128 ^ g + 128 * (m / 128)) * 128 :=
          Nat.le_mul_of_pos_right _ (by norm_num)
        rw [hlen] at hbound
        omega
      have hbits' : 7 * (g : Int) ≤ bits := by
        rw [hlen] at hbits
        push_cast at hbits ⊢
        omega
      -- process the leading digits of m / 128
      rw [hrec, List.map_append, List.append_assoc]
      rw [ih (m / 128) (Nat.div_lt_self (Nat.pos_of_ne_zero hm) (by norm_num))
        c _ bits hbound' hbits']
      -- process the last continuation digit of m
      have hmod : m % 128 < 128 := Nat.mod_lt m (by norm_num)
      set A : Nat := 128 * c * 128 ^ g + 128 * (m / 128) with hA
      have hAdvd : A = 128 * (c * 128 ^ g + m / 128) := by rw [hA]; ring
      simp only [List.map_cons, List.map_nil, List.singleton_append]
      show readIntegerLoop ((m % 128 ||| 128) :: l) A (bits - 7 * g) = _
      rw [readIntegerLoop]
      have hcont : (m % 128 ||| 128) &&& 128 ≠ 0 := cont_and128 hmod
      have hbitpos : bits - 7 * (g : Int) > 0 := by
        rw [hlen] at hbits
        push_cast at hbits
        omega
      rw [if_neg hcont, if_pos hbitpos]
      have hand : (m % 128 ||| 128) &&& 127 = m % 128 := by
        rw [and127_eq_mod, or128_eq_add hmod]
        omega
      have hor : A ||| (m % 128) = A + m % 128 := by
        rw [hAdvd]
        exact mul128_or_eq_add _ hmod
      have hshift : (A + m % 128) <<< 7 = (A + m % 128) * 128 := by
        rw [Nat.shiftLeft_eq]
      have hval : (A + m % 128) * 128 =
          128 * c * 128 ^ (g + 1) + 128 * m := by
        have hdm : 128 * (m / 128) + m % 128 = m := Nat.div_add_mod m 128
        calc (A + m % 128) * 128
            = (128 * c * 128 ^ g) * 128 + (128 * (m / 128) + m % 128) * 128 := by
              rw [hA]; ring
          _ = 128 * c * 128 ^ (g + 1) + m * 128 := by rw [hdm]; ring
          _ = 128 * c * 128 ^ (g + 1) + 128 * m := by ring
      have hboundg : 128 * c * 128 ^ (g + 1) + 128 * m < sieve_size_modulus := by
        rw [hlen] at hbound
        exact hbound
      rw [hand, hor, hshift, hval, Nat.mod_eq_of_lt hboundg]
      simp only [List.length_append, List.length_cons, List.length_nil]
      push_cast
      congr 1
      ring

theorem markContinuation_append (l : List Nat) (d : Nat) :
    markContinuation (l ++ [d]) = l.map (· ||| 128) ++ [d] := by
  induction l with
  | nil => rfl
  | cons b l ih =>
    cases l with
    | nil => rfl
    | cons c l' =>
      simp only [List.cons_append, List.append_eq, markContinuation,
        List.map_cons] at ih ⊢
      rw [ih]

end Pigeonhole

/-- Claim C3 counterexample: `2 ^ 63` is representable in `sieve_size_t`
but needs ten base-128 digits, one more than the nine-byte staging buffer
`char buffer[sizeof(sieve_size_t) + 1]` holds, so the digit loop of
`sieve_binary_emit_integer` writes before the start of the buffer and no
well-defined encoding is produced; the claimed round-trip therefore fails
for this value. -/
theorem Pigeonhole.varint_emit_overruns_buffer :
    (varintDigits (2 ^ 63)).length = 10 ∧
    emit_buffer_size < (varintDigits (2 ^ 63)).length ∧
    sieve_binary_emit_integer [] (2 ^ 63) = none := by
  refine ⟨by decide, by decide, by decide⟩

/-- Claim C3 (amended): for every `x` whose encoding fits the emit's
nine-byte staging buffer — that is, `x < 128 ^ 9 = 2 ^ 63` — the emit
succeeds and reading the varint immediately afterwards at the returned
address reproduces `x`, leaving the read address exactly past the emitted
bytes (the end of the buffer); for larger representable values the emit
overruns its staging buffer (undefined behaviour, see the
counterexample). -/
theorem Pigeonhole.varint_emit_read_roundtrip (buf : List Nat) (x : Nat)
    (hx : x < 128 ^ 9) :
    ∃ code address,
      sieve_binary_emit_integer buf x = some (code, address) ∧
      sieve_binary_read_integer code address = some (x, code.length) := by
  have hxm : x < sieve_size_modulus :=
    lt_of_lt_of_le hx (by norm_num [sieve_size_modulus])
  have hmod : x % 128 < 128 := Nat.mod_lt x (by norm_num)
  have hdiv8 : x / 128 < 128 ^ 8 := by
    rw [Nat.div_lt_iff_lt_mul (by norm_num : (0 : Nat) < 128)]
    calc x < 128 ^ 9 := hx
      _ = 128 ^ 8 * 128 := by ring
  have hlen8 : (varintDigitsAux (x / 128)).length ≤ 8 :=
    varintDigitsAux_length_le hdiv8
  have hstep : 128 * (x / 128) ≤ x := by
    have := Nat.div_mul_le_self x 128
    omega
  have hfits : (varintDigits x).length ≤ emit_buffer_size := by
    unfold varintDigits emit_buffer_size
    simp only [List.length_append, List.length_cons, List.length_nil]
    omega
  refine ⟨buf ++ markContinuation (varintDigits x), buf.length, ?_, ?_⟩
  · unfold sieve_binary_emit_integer
    rw [if_pos hfits]
  · unfold sieve_binary_read_integer
    rw [List.drop_left, varintDigits, markContinuation_append]
    have hacc : (0 : Nat) = 128 * 0 := by norm_num
    rw [hacc]
    rw [readIntegerLoop_cont (x / 128) 0 [x % 128] (sieve_size_bits : Int)
      (by simp only [Nat.mul_zero, Nat.zero_mul, Nat.zero_add]
          calc 128 * (x / 128) ≤ x := hstep
            _ < sieve_size_modulus := hxm)
      (by show 7 * ((varintDigitsAux (x / 128)).length : Int) ≤ 64
          have : ((varintDigitsAux (x / 128)).length : Int) ≤ 8 := by
            exact_mod_cast hlen8
          omega)]
    simp only [Nat.mul_zero, Nat.zero_mul, Nat.zero_add]
    rw [readIntegerLoop]
    rw [if_pos (terminal_and128 hmod)]
    have hand : x % 128 &&& 127 = x % 128 := by
      rw [and127_eq_mod, Nat.mod_eq_of_lt hmod]
    have hor : 128 * (x / 128) ||| x % 128 = 128 * (x / 128) + x % 128 :=
      mul128_or_eq_add _ hmod
    rw [hand, hor, Nat.div_add_mod x 128]
    simp

/-- Witness for the varint round-trip theorem at the concrete input
`x = 300` emitted after a two-byte buffer. -/
theorem Pigeonhole.varint_emit_read_roundtrip_witness :
    300 < 128 ^ 9 ∧
    ∃ code address,
      sieve_binary_emit_integer [7, 9] 300 = some (code, address) ∧
      sieve_binary_read_integer code address = some (300, code.length) :=
  ⟨by norm_num, Pigeonhole.varint_emit_read_roundtrip [7, 9] 300
    (by norm_num)⟩

/-- Claim C4 counterexample: a varint supplying 70 significant bits (nine
continuation bytes of `0xFF` and a final `0x7F`) is not rejected by
`sieve_binary_read_integer`; it is accepted and the value `2 ^ 70 - 1` is
silently truncated to `2 ^ 64 - 1`. -/
theorem Pigeonhole.read_integer_overlong_accepted :
    sieve_binary_read_integer
        [255, 255, 255, 255, 255, 255, 255, 255, 255, 127] 0 =
      some (2 ^ 64 - 1, 10) := by
  decide

namespace Pigeonhole

theorem readIntegerLoop_budget_exhausted :
    ∀ (cs rest : List Nat) (acc : Nat) (bits : Int),
      cs ≠ [] → (∀ b ∈ cs, b &&& 128 ≠ 0) →
      bits ≤ 7 * ((cs.length : Int) - 1) →
      readIntegerLoop (cs ++ rest) acc bits = none
  | [], _, _, _, h, _, _ => absurd rfl h
  | b :: cs, rest, acc, bits, _, hcont, hbits => by
    rw [List.cons_append, readIntegerLoop,
      if_neg (hcont b (List.mem_cons_self b cs))]
    by_cases hb : bits > 0
    · rw [if_pos hb]
      cases cs with
      | nil =>
        simp only [List.length_cons, List.length_nil] at hbits
        omega
      | cons c cs' =>
        apply readIntegerLoop_budget_exhausted (c :: cs') rest _ (bits - 7)
          (by simp) (fun x hx => hcont x (List.mem_cons_of_mem b hx))
        simp only [List.length_cons] at hbits ⊢
        push_cast at hbits ⊢
        omega
    · rw [if_neg hb]

end Pigeonhole

/-- Claim C4 (amended): `sieve_binary_read_integer` rejects a varint only
once the bits budget is exhausted, which happens when more than ten
continuation bytes precede the terminator; in particular every byte
sequence starting with eleven continuation bytes is rejected.  (Sequences
of at most ten continuation bytes are accepted even when they carry more
than 64 significant bits; the value is then truncated, see the
counterexample.) -/
theorem Pigeonhole.read_integer_eleven_continuations_fail
    (cs rest : List Nat) (hlen : cs.length = 11)
    (hcont : ∀ b ∈ cs, b &&& 128 ≠ 0) :
    sieve_binary_read_integer (cs ++ rest) 0 = none := by
  unfold sieve_binary_read_integer
  rw [List.drop_zero]
  rw [readIntegerLoop_budget_exhausted cs rest 0 (sieve_size_bits : Int)
    (by intro h; rw [h] at hlen; simp at hlen) hcont
    (by rw [hlen]; norm_num [sieve_size_bits])]

/-- Witness for the eleven-continuation-bytes failure at a concrete
input. -/
theorem Pigeonhole.read_integer_eleven_continuations_fail_witness :
    sieve_binary_read_integer (List.replicate 11 255 ++ [127]) 0 = none :=
  Pigeonhole.read_integer_eleven_continuations_fail
    (List.replicate 11 255) [127] (by decide) (by decide)

namespace Pigeonhole

/-! ## Jump-offset codec and interpreter program jumps
(`sieve-binary.c`, `sieve_binary_read_offset`; `sieve.c` interpreter part,
`sieve_interpreter_program_jump`, loop stack handling) -/

/-- Decode four big-endian bytes into an unsigned 32-bit value, as the
loop in `sieve_binary_read_offset` accumulates them. -/
def offsetWord (b0 b1 b2 b3 : Nat) : Nat :=
  ((((b0 % 256) * 256 + b1 % 256) * 256 + b2 % 256) * 256 + b3 % 256)

/-- Reinterpret an unsigned 32-bit value as a signed `int` (two's
complement), as the cast `(int) offs` does. -/
def toSigned32 (u : Nat) : Int :=
  if u < 2 ^ 31 then (u : Int) else (u : Int) - 2 ^ 32

/-- `sieve_binary_read_offset`: read a 4-byte big-endian two's-complement
offset at `address`; on success return the offset and advance the address
by four.  Fails when fewer than four bytes are left. -/
def sieve_binary_read_offset (code : List Nat) (address : Nat) :
    Option (Int × Nat) :=
  if address + 4 ≤ code.length then
    some (toSigned32 (offsetWord (code.getD address 0)
        (code.getD (address + 1) 0) (code.getD (address + 2) 0)
        (code.getD (address + 3) 0)),
      address + 4)
  else
    none

/-- A loop frame of the interpreter (`struct sieve_interpreter_loop`):
nesting level, begin and end program counters.  The arena pool and the
extension context of a frame do not affect control flow and are omitted. -/
structure SieveLoop where
  level : Nat
  beginPc : Nat
  endPc : Nat
deriving DecidableEq, Repr

/-- The control-flow state of the interpreter: program counter, loop stack
(outermost frame first, the innermost frame last) and the cached loop
limit. -/
structure InterpState where
  pc : Nat
  loop_stack : List SieveLoop
  loop_limit : Nat
deriving DecidableEq, Repr

/-- Execution status codes (`SIEVE_EXEC_*`) relevant to the embedded
functions. -/
inductive ExecStatus where
  | ok
  | failure
  | bin_corrupt
deriving DecidableEq, Repr

/-- The interpreter invariant stated by the specification: the loop limit
equals the `end_pc` of the innermost live loop frame, or `0` when no frame
is active. -/
def loopLimitInv (st : InterpState) : Prop :=
  st.loop_limit = match st.loop_stack.getLast? with
    | some f => f.endPc
    | none => 0

instance (st : InterpState) : Decidable (loopLimitInv st) := by
  unfold loopLimitInv
  infer_instance

/-- `sieve_interpreter_loop_start`: validate the loop end offset against
the block size, enforce the nesting limit, push a frame recording the
current program counter as begin, and set the loop limit to the new end.
The nesting limit is `SIEVE_MAX_LOOP_DEPTH` counted from the parent
interpreter's loop level. -/
def sieve_interpreter_loop_start (st : InterpState) (loop_end : Nat)
    (block_size : Nat) (parent_loop_level max_loop_depth : Nat) :
    ExecStatus × InterpState :=
  if loop_end > block_size then
    (.bin_corrupt, st)
  else if parent_loop_level + st.loop_stack.length ≥ max_loop_depth then
    (.failure, st)
  else
    (.ok,
      { pc := st.pc,
        loop_stack := st.loop_stack ++
          [{ level := st.loop_stack.length, beginPc := st.pc,
             endPc := loop_end }],
        loop_limit := loop_end })

/-- `sieve_interpreter_loop_break`, breaking the frame at stack index `i`
(the C code receives a pointer into the stack array): every frame at index
`i` or deeper is unwound (its pool is freed and it is deleted), the loop
limit is set to `loops[i].end` when `i > 0` and to `0` otherwise, and the
program counter is set to the broken frame's end.  The out-of-range case
corresponds to a failed `i_assert` in the C code and cannot be reached
from `loop_break_out`. -/
def sieve_interpreter_loop_break (st : InterpState) (i : Nat) :
    ExecStatus × InterpState :=
  match st.loop_stack.get? i with
  | none => (.bin_corrupt, st)
  | some frame =>
    (.ok,
      { pc := frame.endPc,
        loop_stack := st.loop_stack.take i,
        loop_limit := if i > 0 then frame.endPc else 0 })

/-- The descending scan of `sieve_interpreter_loop_break_out`: starting
from the top of the stack, find the first index `i` (counting from
`count` down) whose frame below (`loops[i-1]`) ends beyond the jump
target; the input list here is the loop stack reversed (innermost frame
first). -/
def breakOutScan (revStack : List SieveLoop) (target : Nat) : Nat :=
  match revStack with
  | [] => 0
  | f :: rest => if f.endPc > target then rest.length + 1
    else breakOutScan rest target

/-- `sieve_interpreter_loop_break_out`: break out of every loop whose end
does not lie beyond the jump target. -/
def sieve_interpreter_loop_break_out (st : InterpState) (target : Nat) :
    ExecStatus × InterpState :=
  let i := breakOutScan st.loop_stack.reverse target
  if i = st.loop_stack.length then (.ok, st)
  else sieve_interpreter_loop_break st i

/-- `sieve_interpreter_program_jump`: read the 4-byte jump offset at the
program counter, compute the target relative to the offset's first byte
in `sieve_size_t` arithmetic, validate it against the block size and the
loop limit (ignored when `break_loops` is set), and move the program
counter when `jump` is requested. -/
def sieve_interpreter_program_jump (code : List Nat)
    (jump break_loops : Bool) (st : InterpState) :
    ExecStatus × InterpState :=
  let jmp_start := st.pc
  match sieve_binary_read_offset code st.pc with
  | none => (.bin_corrupt, st)
  | some (jmp_offset, address) =>
    let st1 : InterpState := { st with pc := address }
    let loop_limit := if break_loops then 0 else st1.loop_limit
    let jmp_target : Nat :=
      ((((jmp_start : Int) + jmp_offset) % (sieve_size_modulus : Int))).toNat
    if jmp_target ≤ code.length ∧
        (loop_limit = 0 ∨ jmp_target < loop_limit) ∧ jmp_target > 0 then
      if jump then
        match (if break_loops then
            sieve_interpreter_loop_break_out st1 jmp_target
          else (.ok, st1)) with
        | (.ok, st2) => (.ok, { st2 with pc := jmp_target })
        | (ret, st2) => (ret, st2)
      else
        (.ok, st1)
    else
      (.bin_corrupt, st1)

end Pigeonhole

namespace Pigeonhole

/-! ### Facts about the jump machinery -/

theorem offsetWord_lt (b0 b1 b2 b3 : Nat) : offsetWord b0 b1 b2 b3 < 2 ^ 32 := by
  unfold offsetWord
  have h0 : b0 % 256 < 256 := Nat.mod_lt _ (by norm_num)
  have h1 : b1 % 256 < 256 := Nat.mod_lt _ (by norm_num)
  have h2 : b2 % 256 < 256 := Nat.mod_lt _ (by norm_num)
  have h3 : b3 % 256 < 256 := Nat.mod_lt _ (by norm_num)
  norm_num
  omega

theorem toSigned32_bounds {u : Nat} (hu : u < 2 ^ 32) :
    -(2 ^ 31) ≤ toSigned32 u ∧ toSigned32 u < 2 ^ 31 := by
  unfold toSigned32
  norm_num at hu ⊢
  omega

theorem breakOutScan_le (l : List SieveLoop) (t : Nat) :
    breakOutScan l t ≤ l.length := by
  induction l with
  | nil => simp [breakOutScan]
  | cons f rest ih =>
    rw [breakOutScan]
    by_cases h : f.endPc > t
    · rw [if_pos h]
      simp
    · rw [if_neg h]
      simp only [List.length_cons]
      omega

/-- `loop_break_out` always succeeds: the scan index is either the stack
size (no frame broken) or a valid index into the stack. -/
theorem loop_break_out_ok (st : InterpState) (t : Nat) :
    ∃ st2, sieve_interpreter_loop_break_out st t = (ExecStatus.ok, st2) := by
  unfold sieve_interpreter_loop_break_out
  by_cases h : breakOutScan st.loop_stack.reverse t = st.loop_stack.length
  · exact ⟨st, by rw [if_pos h]⟩
  · rw [if_neg h]
    have hle := breakOutScan_le st.loop_stack.reverse t
    rw [List.length_reverse] at hle
    have hlt : breakOutScan st.loop_stack.reverse t < st.loop_stack.length := by
      omega
    unfold sieve_interpreter_loop_break
    match hget : st.loop_stack.get? (breakOutScan st.loop_stack.reverse t) with
    | some frame => exact ⟨_, rfl⟩
    | none =>
      rw [List.get?_eq_none] at hget
      omega

end Pigeonhole

namespace Pigeonhole

/-- The signed 32-bit offset encoded at `pc` (meaningful when four bytes
are available there). -/
def decodedOffset (code : List Nat) (pc : Nat) : Int :=
  toSigned32 (offsetWord (code.getD pc 0) (code.getD (pc + 1) 0)
    (code.getD (pc + 2) 0) (code.getD (pc + 3) 0))

/-- The mathematical jump target: the address of the offset's first byte
plus the decoded signed offset. -/
def decodedJumpTarget (code : List Nat) (pc : Nat) : Int :=
  pc + decodedOffset code pc

end Pigeonhole

/-- Claim C2: a program jump succeeds (status `SIEVE_EXEC_OK`, with the
program counter set to the target when the jump condition holds) exactly
when the offset is readable and the target `jmp_start + offset` satisfies
`0 < target ≤ block_size` and, unless `break_loops` is set,
`target < loop_limit` (`loop_limit = 0` meaning no active loop frame);
any other target yields `SIEVE_EXEC_BIN_CORRUPT`, and the program counter
is never set outside `[0, block_size]`.  The bound on `block_size` rules
out wrap-around of the `sieve_size_t` target computation. -/
theorem Pigeonhole.program_jump_safety (code : List Nat)
    (st : InterpState) (jump break_loops : Bool)
    (hpc : st.pc < code.length)
    (hsize : (code.length : Int) + 2 ^ 31 < (sieve_size_modulus : Int)) :
    ((sieve_interpreter_program_jump code jump break_loops st).1 =
        ExecStatus.ok ↔
      (st.pc + 4 ≤ code.length ∧ 0 < decodedJumpTarget code st.pc ∧
        decodedJumpTarget code st.pc ≤ (code.length : Int) ∧
        (break_loops = true ∨ st.loop_limit = 0 ∨
          decodedJumpTarget code st.pc < (st.loop_limit : Int)))) ∧
    ((sieve_interpreter_program_jump code jump break_loops st).1 =
        ExecStatus.ok ∨
      (sieve_interpreter_program_jump code jump break_loops st).1 =
        ExecStatus.bin_corrupt) ∧
    (sieve_interpreter_program_jump code jump break_loops st).2.pc ≤
      code.length ∧
    ((sieve_interpreter_program_jump code jump break_loops st).1 =
        ExecStatus.ok → jump = true →
      ((sieve_interpreter_program_jump code jump break_loops st).2.pc : Int) =
        decodedJumpTarget code st.pc) := by
  have hM : (sieve_size_modulus : Int) = 18446744073709551616 := by
    norm_num [sieve_size_modulus]
  rw [hM] at hsize
  by_cases h4 : st.pc + 4 ≤ code.length
  · have hread : sieve_binary_read_offset code st.pc =
        some (decodedOffset code st.pc, st.pc + 4) := by
      unfold sieve_binary_read_offset decodedOffset
      rw [if_pos h4]
    have hoff := toSigned32_bounds (offsetWord_lt (code.getD st.pc 0)
      (code.getD (st.pc + 1) 0) (code.getD (st.pc + 2) 0)
      (code.getD (st.pc + 3) 0))
    rw [show toSigned32 (offsetWord (code.getD st.pc 0)
        (code.getD (st.pc + 1) 0) (code.getD (st.pc + 2) 0)
        (code.getD (st.pc + 3) 0)) = decodedOffset code st.pc from rfl] at hoff
    set T : Int := decodedJumpTarget code st.pc with hT
    have hTdef : T = (st.pc : Int) + decodedOffset code st.pc := rfl
    set N : Nat := ((((st.pc : Int) + decodedOffset code st.pc) %
      (sieve_size_modulus : Int))).toNat with hN
    have hNval : N = ((T % 18446744073709551616 : Int)).toNat := by
      rw [hN, hM, ← hTdef]
    have hbridge : (N ≤ code.length ∧ 0 < N) ↔
        (0 < T ∧ T ≤ (code.length : Int)) := by
      rw [hNval]
      norm_num at hoff
      constructor
      · intro h
        constructor
        · omega
        · omega
      · intro h
        constructor
        · omega
        · omega
    have heqT : 0 < T → ((N : Int)) = T := by
      intro h
      rw [hNval]
      have hlt : T < 18446744073709551616 := by
        norm_num at hoff
        omega
      omega
    unfold sieve_interpreter_program_jump
    rw [hread]
    dsimp only
    rw [← hN]
    by_cases hcond : N ≤ code.length ∧
        ((if break_loops then 0 else st.loop_limit) = 0 ∨
          N < (if break_loops then 0 else st.loop_limit)) ∧ N > 0
    · rw [if_pos hcond]
      have hTgood : 0 < T ∧ T ≤ (code.length : Int) :=
        hbridge.mp ⟨hcond.1, hcond.2.2⟩
      have hNT : ((N : Int)) = T := heqT hTgood.1
      have hlimit : break_loops = true ∨ st.loop_limit = 0 ∨
          T < (st.loop_limit : Int) := by
        cases hbl : break_loops with
        | true => exact Or.inl rfl
        | false =>
          rw [hbl] at hcond
          simp at hcond
          rcases hcond.2.1 with h | h
          · exact Or.inr (Or.inl h)
          · refine Or.inr (Or.inr ?_)
            rw [← hNT]
            exact_mod_cast h
      cases hjump : jump with
      | false =>
        refine ⟨iff_of_true rfl ⟨h4, hTgood.1, hTgood.2, hlimit⟩,
          Or.inl rfl, by simpa using h4, ?_⟩
        intro _ hj
        cases hj
      | true =>
        cases hbl : break_loops with
        | false =>
          refine ⟨iff_of_true rfl ⟨h4, hTgood.1, hTgood.2,
              by rw [← hbl]; exact hlimit⟩,
            Or.inl rfl, ?_, ?_⟩
          · simpa using hcond.1
          · intro _ _
            exact hNT
        | true =>
          obtain ⟨st2, hbo⟩ := loop_break_out_ok
            { st with pc := st.pc + 4 } N
          rw [hbo]
          refine ⟨iff_of_true rfl ⟨h4, hTgood.1, hTgood.2, Or.inl rfl⟩,
            Or.inl rfl, ?_, ?_⟩
          · simpa using hcond.1
          · intro _ _
            exact hNT
    · rw [if_neg hcond]
      refine ⟨iff_of_false (fun hok => nomatch hok) ?_, Or.inr rfl,
        by simpa using h4, ?_⟩
      · intro hrhs
        apply hcond
        have hgood := hbridge.mpr ⟨hrhs.2.1, hrhs.2.2.1⟩
        have hNT : ((N : Int)) = T := heqT hrhs.2.1
        refine ⟨hgood.1, ?_, hgood.2⟩
        cases hbl : break_loops with
        | true => exact Or.inl (by simp)
        | false =>
          rw [if_neg Bool.false_ne_true]
          rcases hrhs.2.2.2 with hbl' | hll | hlt
          · rw [hbl] at hbl'
            cases hbl'
          · exact Or.inl hll
          · refine Or.inr ?_
            have hlt2 : (N : Int) < (st.loop_limit : Int) := by
              rw [hNT]; exact hlt
            exact_mod_cast hlt2
      · intro hok
        cases hok
  · have hread : sieve_binary_read_offset code st.pc = none := by
      unfold sieve_binary_read_offset
      rw [if_neg h4]
    unfold sieve_interpreter_program_jump
    rw [hread]
    dsimp only
    refine ⟨?_, Or.inr rfl, by omega, ?_⟩
    · constructor
      · intro hok
        cases hok
      · intro h
        exact absurd h.1 h4
    · intro hok
      cases hok

/-- Witness for the program-jump theorem: a forward jump by 6 in an
8-byte block with no active loop succeeds. -/
theorem Pigeonhole.program_jump_safety_witness :
    (sieve_interpreter_program_jump [0, 0, 0, 6, 0, 0, 0, 0] true false
      { pc := 0, loop_stack := [], loop_limit := 0 }).1 = ExecStatus.ok := by
  have h := Pigeonhole.program_jump_safety [0, 0, 0, 6, 0, 0, 0, 0]
    { pc := 0, loop_stack := [], loop_limit := 0 } true false (by decide)
    (by norm_num [Pigeonhole.sieve_size_modulus])
  exact h.1.mpr ⟨by decide, by decide, by decide, Or.inr (Or.inl rfl)⟩

/-- Claim C5 counterexample: in a state with two nested live frames
(outer `end_pc = 20`, inner `end_pc = 10`) whose loop limit satisfies the
claimed invariant, breaking the inner frame leaves `loop_limit = 10`, the
broken frame's own end, while the now-innermost remaining frame ends at
`20`; the claimed invariant is violated after the break. -/
theorem Pigeonhole.loop_break_restores_broken_end_counterexample :
    loopLimitInv
      { pc := 7, loop_stack := [⟨0, 2, 20⟩, ⟨1, 5, 10⟩],
        loop_limit := 10 } ∧
    (sieve_interpreter_loop_break
      { pc := 7, loop_stack := [⟨0, 2, 20⟩, ⟨1, 5, 10⟩],
        loop_limit := 10 } 1).1 = ExecStatus.ok ∧
    ¬ loopLimitInv (sieve_interpreter_loop_break
      { pc := 7, loop_stack := [⟨0, 2, 20⟩, ⟨1, 5, 10⟩],
        loop_limit := 10 } 1).2 := by
  decide

/-- Claim C5 (amended): `loop_start` establishes the invariant that the
loop limit is the innermost frame's `end_pc`, and `loop_break(frame)`
unwinds every frame at or inside the broken frame, sets the program
counter to the broken frame's end, and sets the loop limit to the broken
frame's own `end_pc` when an enclosing frame remains (`0` when none
remains) — not to the end of the now-innermost remaining frame. -/
theorem Pigeonhole.loop_start_break_amended (st : InterpState)
    (loop_end block_size parent_level max_depth : Nat)
    (st' : InterpState) (i : Nat) (frame : SieveLoop) :
    ((sieve_interpreter_loop_start st loop_end block_size parent_level
        max_depth).1 = ExecStatus.ok →
      loopLimitInv (sieve_interpreter_loop_start st loop_end block_size
        parent_level max_depth).2) ∧
    (st'.loop_stack.get? i = some frame →
      sieve_interpreter_loop_break st' i =
        (ExecStatus.ok,
          { pc := frame.endPc, loop_stack := st'.loop_stack.take i,
            loop_limit := if i = 0 then 0 else frame.endPc })) := by
  constructor
  · intro hok
    unfold sieve_interpreter_loop_start at hok ⊢
    by_cases h1 : loop_end > block_size
    · rw [if_pos h1] at hok
      cases hok
    · rw [if_neg h1] at hok ⊢
      by_cases h2 : parent_level + st.loop_stack.length ≥ max_depth
      · rw [if_pos h2] at hok
        cases hok
      · rw [if_neg h2]
        unfold loopLimitInv
        simp [List.getLast?_concat]
  · intro hget
    unfold sieve_interpreter_loop_break
    rw [hget]
    by_cases hi : i = 0
    · subst hi
      simp
    · simp [hi, Nat.pos_of_ne_zero hi]

/-- Witness for the amended loop theorem: starting a loop ending at 10 in
a 12-byte block establishes the invariant, and breaking the inner of two
frames yields `pc = 10`, the outer frame alone, and `loop_limit = 10`. -/
theorem Pigeonhole.loop_start_break_amended_witness :
    loopLimitInv (sieve_interpreter_loop_start
      { pc := 3, loop_stack := [], loop_limit := 0 } 10 12 0 4).2 ∧
    sieve_interpreter_loop_break
      { pc := 7, loop_stack := [⟨0, 2, 20⟩, ⟨1, 5, 10⟩], loop_limit := 10 }
      1 =
      (ExecStatus.ok,
        { pc := 10, loop_stack := [⟨0, 2, 20⟩], loop_limit := 10 }) := by
  have h := Pigeonhole.loop_start_break_amended
    { pc := 3, loop_stack := [], loop_limit := 0 } 10 12 0 4
    { pc := 7, loop_stack := [⟨0, 2, 20⟩, ⟨1, 5, 10⟩], loop_limit := 10 }
    1 ⟨1, 5, 10⟩
  exact ⟨h.1 (by decide), (h.2 (by decide)).trans (by decide)⟩

namespace Pigeonhole

/-! ## Binary file header validation (`sieve-binary.c`,
`_sieve_binary_load`)

The in-memory file image is a byte list; the host is little-endian, so a
`uint32_t` read from the image is the little-endian combination of four
bytes. -/

/-- `SIEVE_BINARY_MAGIC`. -/
def SIEVE_BINARY_MAGIC : Nat := 0xdeadbeaf

/-- `SIEVE_BINARY_VERSION_MAJOR`. -/
def SIEVE_BINARY_VERSION_MAJOR : Nat := 0

/-- `SIEVE_BINARY_VERSION_MINOR`. -/
def SIEVE_BINARY_VERSION_MINOR : Nat := 0

/-- A `uint32_t` read from four little-endian bytes of the mapped file. -/
def u32le (b0 b1 b2 b3 : Nat) : Nat :=
  b0 % 256 + (b1 % 256) * 256 + (b2 % 256) * 65536 + (b3 % 256) * 16777216

/-- A `uint16_t` read from two little-endian bytes of the mapped file. -/
def u16le (b0 b1 : Nat) : Nat :=
  b0 % 256 + (b1 % 256) * 256

/-- Outcome of `_sieve_binary_load`: either a header-stage failure
(returned before any block is read) or the continuation value produced by
the block-loading stages. -/
inductive LoadResult (α : Type) where
  | truncated_header
  | bad_magic
  | bad_version
  | no_blocks
  | blocks (a : α)
deriving DecidableEq, Repr

/-- `_sieve_binary_load`: validate the header of the mapped binary image
(present, magic, version, non-zero block count) and only then hand the
block count to the block-index/block-loading stages, which are abstracted
as the continuation `loadBlocks`.  Every header failure returns `FALSE`
before any block is read. -/
def _sieve_binary_load (loadBlocks : Nat → α) (mem : List Nat) :
    LoadResult α :=
  if mem.length < 12 then
    .truncated_header
  else if u32le (mem.getD 0 0) (mem.getD 1 0) (mem.getD 2 0)
      (mem.getD 3 0) ≠ SIEVE_BINARY_MAGIC then
    .bad_magic
  else if u16le (mem.getD 4 0) (mem.getD 5 0) ≠ SIEVE_BINARY_VERSION_MAJOR ∨
      u16le (mem.getD 6 0) (mem.getD 7 0) ≠ SIEVE_BINARY_VERSION_MINOR then
    .bad_version
  else if u32le (mem.getD 8 0) (mem.getD 9 0) (mem.getD 10 0)
      (mem.getD 11 0) = 0 then
    .no_blocks
  else
    .blocks (loadBlocks (u32le (mem.getD 8 0) (mem.getD 9 0)
      (mem.getD 10 0) (mem.getD 11 0)))

end Pigeonhole

/-- Claim C6: for every loaded binary image whose 32-bit header magic
differs from the native magic constant, `_sieve_binary_load` fails with
`bad_magic` before reading any block, whatever the block-loading stage
would do; in particular the byte-reversed magic written by an
opposite-endian host is rejected, never re-interpreted. -/
theorem Pigeonhole.binary_load_rejects_wrong_magic {α : Type}
    (loadBlocks : Nat → α) (mem : List Nat) (hlen : 12 ≤ mem.length)
    (hmagic : u32le (mem.getD 0 0) (mem.getD 1 0) (mem.getD 2 0)
      (mem.getD 3 0) ≠ SIEVE_BINARY_MAGIC) :
    _sieve_binary_load loadBlocks mem = LoadResult.bad_magic := by
  unfold _sieve_binary_load
  rw [if_neg (by omega), if_pos hmagic]

/-- Witness for the bad-magic rejection: the native magic `0xdeadbeaf`
written by a big-endian host appears to a little-endian loader as the
byte-reversed value `0xafbeadde` and the load is rejected at the header. -/
theorem Pigeonhole.binary_load_rejects_wrong_magic_witness :
    _sieve_binary_load (fun n => n)
      [0xde, 0xad, 0xbe, 0xaf, 0, 0, 0, 0, 1, 0, 0, 0] =
      LoadResult.bad_magic :=
  Pigeonhole.binary_load_rejects_wrong_magic (fun n => n)
    [0xde, 0xad, 0xbe, 0xaf, 0, 0, 0, 0, 1, 0, 0, 0]
    (by decide) (by decide)

namespace Pigeonhole

/-! ## Core match types (`sieve-match-types.c`) -/

/-- `mtch_matches_match`, the match function of the `matches` match type:
the body of the C function is literally `return FALSE;` for every value
and key. -/
def mtch_matches_match (val : String) (key : String) : Bool :=
  false

/-- Modelled from the spec: the `:matches` glob semantics (RFC 5228),
absent from the code, in which `*` matches any character sequence, `?`
matches any single character, and `\\*` / `\\?` are escapes for the
literal characters; shown here for the `i;octet` comparator (no case
folding).  Fuel-driven for structural evaluation; the initial fuel
`val.length + key.length + 1` always suffices because every step consumes
a character of the value or of the key. -/
def specGlobMatchGo : Nat → List Char → List Char → Bool
  | 0, _, _ => false
  | _ + 1, val, [] => val.isEmpty
  | fuel + 1, val, c :: key =>
    if c = '*' then
      specGlobMatchGo fuel val key ||
        (match val with
         | [] => false
         | _ :: val' => specGlobMatchGo fuel val' (c :: key))
    else if c = '\\' then
      match key with
      | k :: key' =>
        if k = '*' ∨ k = '?' then
          match val with
          | v :: val' => v = k && specGlobMatchGo fuel val' key'
          | [] => false
        else
          match val with
          | v :: val' => v = c && specGlobMatchGo fuel val' (k :: key')
          | [] => false
      | [] =>
        match val with
        | v :: val' => v = c && specGlobMatchGo fuel val' []
        | [] => false
    else if c = '?' then
      match val with
      | _ :: val' => specGlobMatchGo fuel val' key
      | [] => false
    else
      match val with
      | v :: val' => v = c && specGlobMatchGo fuel val' key
      | [] => false

/-- Modelled from the spec: whole-value glob match of a value against a
`:matches` key. -/
def specGlobMatch (val key : String) : Bool :=
  specGlobMatchGo (val.length + key.length + 1) val.data key.data

end Pigeonhole

/-- Claim C1: the repository's own test script uses
`if string :matches \"${match1}\" \"Test of *\"` with
`match1 = \"Test of general stupidity\"` and expects a match with
`${1} = \"general stupidity\"`; the glob semantics of the specification
match this value and key, but `mtch_matches_match` returns `FALSE`
unconditionally, so the `matches` match type never matches anything and
never captures match values. -/
theorem Pigeonhole.matches_match_type_is_stubbed :
    mtch_matches_match "Test of general stupidity" "Test of *" = false ∧
    specGlobMatch "Test of general stupidity" "Test of *" = true ∧
    (∀ val key : String, mtch_matches_match val key = false) := by
  refine ⟨rfl, by decide, fun val key => rfl⟩

namespace Pigeonhole

/-! ## Store action (`sieve-actions.c`): duplicate detection -/

/-- ASCII lower-casing of a character, as `strcasecmp` folds bytes. -/
def charLowerAscii (c : Char) : Char :=
  if 'A' ≤ c ∧ c ≤ 'Z' then Char.ofNat (c.toNat + 32) else c

/-- `strcasecmp(a, b) == 0`: equality after ASCII case folding. -/
def strcaseEq (a b : String) : Bool :=
  a.data.map charLowerAscii == b.data.map charLowerAscii

/-- `SIEVE_SCRIPT_DEFAULT_MAILBOX(senv)`: the script environment's
default mailbox, falling back to `INBOX` when the host supplies none. -/
def SIEVE_SCRIPT_DEFAULT_MAILBOX (default_mailbox : Option String) :
    String :=
  default_mailbox.getD "INBOX"

/-- `act_store_equals`: compare two store actions by their target mailbox
name; a `NULL` action context stands for the (implicit-keep) default
mailbox.  Byte-for-byte equality, except that `INBOX` is compared
case-insensitively. -/
def act_store_equals (default_mailbox : Option String)
    (ctx1 ctx2 : Option String) : Bool :=
  match ctx1, ctx2 with
  | none, none => true
  | _, _ =>
    let mailbox1 := ctx1.getD (SIEVE_SCRIPT_DEFAULT_MAILBOX default_mailbox)
    let mailbox2 := ctx2.getD (SIEVE_SCRIPT_DEFAULT_MAILBOX default_mailbox)
    if mailbox1 = mailbox2 then true
    else strcaseEq mailbox1 "INBOX" && strcaseEq mailbox2 "INBOX"

/-- `act_store_check_duplicate`: `1` when the two store actions are equal
per `act_store_equals`, `0` otherwise. -/
def act_store_check_duplicate (default_mailbox : Option String)
    (ctx1 ctx2 : Option String) : Int :=
  if act_store_equals default_mailbox ctx1 ctx2 then 1 else 0

/-! ## Duplicate-message utilities (`sieve_action_duplicate_*`) -/

/-- The host callbacks and data of the script environment used by the
duplicate-message utilities; a callback is `none` when the host leaves
the function pointer `NULL`. -/
structure DuplicateEnv where
  username : String
  duplicate_check : Option (List Nat → String → Int)
  duplicate_mark : Option Unit

/-- `sieve_action_duplicate_check`: `0` (not previously delivered)
without consulting the host unless both callbacks are present. -/
def sieve_action_duplicate_check (senv : DuplicateEnv) (id : List Nat) :
    Int :=
  match senv.duplicate_check, senv.duplicate_mark with
  | some dup_check, some _ => dup_check id senv.username
  | _, _ => 0

/-- `sieve_action_duplicate_mark`: the performed host invocation
(`some (id, username, time)`), or `none` (no effect) unless both
callbacks are present. -/
def sieve_action_duplicate_mark (senv : DuplicateEnv) (id : List Nat)
    (time : Nat) : Option (List Nat × String × Nat) :=
  match senv.duplicate_check, senv.duplicate_mark with
  | some _, some _ => some (id, senv.username, time)
  | _, _ => none

/-- `sieve_action_duplicate_check_available`. -/
def sieve_action_duplicate_check_available (senv : DuplicateEnv) : Bool :=
  senv.duplicate_check.isSome && senv.duplicate_mark.isSome

end Pigeonhole

/-- Claim C7: `act_store_equals` is true exactly when the two target
mailbox names (defaulting to the environment's default mailbox for a
`NULL` context) are byte-for-byte equal or both equal `INBOX` under ASCII
case folding, and `act_store_check_duplicate` returns `1` exactly in that
case and `0` otherwise — never a negative conflict code. -/
theorem Pigeonhole.act_store_equals_spec (default_mailbox : Option String)
    (ctx1 ctx2 : Option String) :
    (act_store_equals default_mailbox ctx1 ctx2 = true ↔
      (ctx1.getD (SIEVE_SCRIPT_DEFAULT_MAILBOX default_mailbox) =
          ctx2.getD (SIEVE_SCRIPT_DEFAULT_MAILBOX default_mailbox) ∨
        ((ctx1.getD (SIEVE_SCRIPT_DEFAULT_MAILBOX
            default_mailbox)).data.map charLowerAscii = "inbox".data ∧
          (ctx2.getD (SIEVE_SCRIPT_DEFAULT_MAILBOX
            default_mailbox)).data.map charLowerAscii = "inbox".data))) ∧
    (act_store_check_duplicate default_mailbox ctx1 ctx2 = 1 ↔
      act_store_equals default_mailbox ctx1 ctx2 = true) ∧
    (act_store_check_duplicate default_mailbox ctx1 ctx2 = 0 ∨
      act_store_check_duplicate default_mailbox ctx1 ctx2 = 1) := by
  have hinbox : ("INBOX".data.map charLowerAscii) = "inbox".data := by decide
  refine ⟨?_, ?_, ?_⟩
  · unfold act_store_equals
    cases ctx1 with
    | none =>
      cases ctx2 with
      | none => simp
      | some m2 =>
        simp only [Option.getD_none, Option.getD_some]
        by_cases heq : SIEVE_SCRIPT_DEFAULT_MAILBOX default_mailbox = m2
        · simp [heq]
        · rw [if_neg heq]
          simp only [strcaseEq, hinbox, Bool.and_eq_true, beq_iff_eq]
          constructor
          · intro ⟨h1, h2⟩
            exact Or.inr ⟨h1, h2⟩
          · intro h
            rcases h with h | ⟨h1, h2⟩
            · exact absurd h heq
            · exact ⟨h1, h2⟩
    | some m1 =>
      simp only [Option.getD_some]
      by_cases heq : m1 = ctx2.getD (SIEVE_SCRIPT_DEFAULT_MAILBOX
          default_mailbox)
      · cases ctx2 <;> simp_all
      · cases ctx2 with
        | none =>
          simp only [Option.getD_none] at heq ⊢
          rw [if_neg heq]
          simp only [strcaseEq, hinbox, Bool.and_eq_true, beq_iff_eq]
          constructor
          · intro ⟨h1, h2⟩
            exact Or.inr ⟨h1, h2⟩
          · intro h
            rcases h with h | ⟨h1, h2⟩
            · exact absurd h heq
            · exact ⟨h1, h2⟩
        | some m2 =>
          simp only [Option.getD_some] at heq ⊢
          rw [if_neg heq]
          simp only [strcaseEq, hinbox, Bool.and_eq_true, beq_iff_eq]
          constructor
          · intro ⟨h1, h2⟩
            exact Or.inr ⟨h1, h2⟩
          · intro h
            rcases h with h | ⟨h1, h2⟩
            · exact absurd h heq
            · exact ⟨h1, h2⟩
  · unfold act_store_check_duplicate
    by_cases h : act_store_equals default_mailbox ctx1 ctx2 = true
    · simp [h]
    · simp [h]
  · unfold act_store_check_duplicate
    by_cases h : act_store_equals default_mailbox ctx1 ctx2 = true
    · simp [h]
    · simp [h]

/-- Claim C10: with either duplicate callback absent,
`sieve_action_duplicate_check` returns `0` whatever the present callback
would compute, `sieve_action_duplicate_mark` performs no host invocation,
and `sieve_action_duplicate_check_available` reports the pair as
unavailable. -/
theorem Pigeonhole.duplicate_check_requires_pair (senv : DuplicateEnv)
    (id : List Nat) (time : Nat)
    (h : senv.duplicate_check = none ∨ senv.duplicate_mark = none) :
    sieve_action_duplicate_check senv id = 0 ∧
    sieve_action_duplicate_mark senv id time = none ∧
    sieve_action_duplicate_check_available senv = false := by
  unfold sieve_action_duplicate_check sieve_action_duplicate_mark
    sieve_action_duplicate_check_available
  rcases h with h | h <;> rw [h] <;>
    cases hc : senv.duplicate_check <;> cases hm : senv.duplicate_mark <;>
    simp_all

/-- Witness for the duplicate-pair theorem: a check callback that would
return `1` is ignored when the mark callback is absent. -/
theorem Pigeonhole.duplicate_check_requires_pair_witness :
    sieve_action_duplicate_check
      { username := "user", duplicate_check := some (fun _ _ => 1),
        duplicate_mark := none } [1, 2] = 0 ∧
    sieve_action_duplicate_mark
      { username := "user", duplicate_check := some (fun _ _ => 1),
        duplicate_mark := none } [1, 2] 5 = none ∧
    sieve_action_duplicate_check_available
      { username := "user", duplicate_check := some (fun _ _ => 1),
        duplicate_mark := none } = false :=
  Pigeonhole.duplicate_check_requires_pair
    { username := "user", duplicate_check := some (fun _ _ => 1),
      duplicate_mark := none } [1, 2] 5 (Or.inr rfl)

namespace Pigeonhole

/-! ## Store action transaction (`act_store_start` / `act_store_execute`
/ `act_store_commit`)

Mail-storage calls (`mail_namespace_find`, `mailbox_open`,
`mailbox_copy`, `mailbox_transaction_commit`, …) are external; their
outcomes enter the model as oracle parameters. -/

/-- Mail storage error codes relevant to the store action. -/
inductive MailError where
  | notfound
  | other
deriving DecidableEq, Repr

/-- Outcome of `act_store_mailbox_open` (external mail storage):
the namespace lookup can fail, the open/create can fail with a storage
error, or the mailbox opens (possibly being the message's own origin
mailbox). -/
inductive OpenOutcome where
  | noNamespace
  | openFailed (errorCode : MailError)
  | opened (sameAsOrigin : Bool)
deriving DecidableEq, Repr

/-- The store transaction context created by `act_store_start`
(`struct act_store_transaction`), with pointers reduced to presence
flags. -/
structure StoreTransaction where
  mailbox : String
  disabled : Bool
  redundant : Bool
  hasNamespace : Bool
  hasBox : Bool
  errorCode : Option MailError
  flagsAltered : Bool
deriving DecidableEq, Repr

/-- `act_store_start`: with no mail namespaces in the script environment
the transaction is marked disabled and no mailbox is opened; otherwise
the open outcome decides the namespace/box/redundant/error fields.  The
returned flag is the C return expression
`box != NULL || error_code == MAIL_ERROR_NOTFOUND || disabled ||
redundant`. -/
def act_store_start (senv_has_namespaces : Bool)
    (default_mailbox : Option String) (ctx : Option String)
    (open_outcome : OpenOutcome) : StoreTransaction × Bool :=
  let mailbox :=
    ctx.getD (SIEVE_SCRIPT_DEFAULT_MAILBOX default_mailbox)
  let trans : StoreTransaction :=
    if senv_has_namespaces then
      match open_outcome with
      | .noNamespace =>
        { mailbox, disabled := false, redundant := false,
          hasNamespace := false, hasBox := false, errorCode := none,
          flagsAltered := false }
      | .openFailed errorCode =>
        { mailbox, disabled := false, redundant := false,
          hasNamespace := true, hasBox := false,
          errorCode := some errorCode, flagsAltered := false }
      | .opened sameAsOrigin =>
        if sameAsOrigin then
          { mailbox, disabled := false, redundant := true,
            hasNamespace := false, hasBox := false, errorCode := none,
            flagsAltered := false }
        else
          { mailbox, disabled := false, redundant := false,
            hasNamespace := true, hasBox := true, errorCode := none,
            flagsAltered := false }
    else
      { mailbox, disabled := true, redundant := false,
        hasNamespace := false, hasBox := false, errorCode := none,
        flagsAltered := false }
  (trans,
    trans.hasBox || (trans.errorCode == some MailError.notfound) ||
      trans.disabled || trans.redundant)

/-- Mailbox operations performed by `act_store_execute`. -/
inductive StoreOp where
  | updateFlags
  | copyMessage
deriving DecidableEq, Repr

/-- `act_store_execute`: a disabled transaction does nothing and
succeeds; a redundant one only updates flags on the original mail; a
missing namespace or box fails; otherwise the message is copied into the
box, with the external copy outcome as oracle. -/
def act_store_execute (trans : StoreTransaction) (copy_ok : Bool) :
    Bool × List StoreOp :=
  if trans.disabled then (true, [])
  else if trans.redundant then
    (true, if trans.flagsAltered then [StoreOp.updateFlags] else [])
  else if !trans.hasNamespace then (false, [])
  else if !trans.hasBox then (false, [])
  else (copy_ok, [StoreOp.copyMessage])

/-- The log lines of `act_store_log_status`, by branch. -/
inductive StoreLog where
  | skipped
  | leftInMailbox
  | noNamespaceError
  | storeFailed
  | aborted
  | stored
deriving DecidableEq, Repr

/-- `act_store_log_status`. -/
def act_store_log_status (trans : StoreTransaction)
    (rolled_back status : Bool) : StoreLog :=
  if trans.disabled then .skipped
  else if trans.redundant then .leftInMailbox
  else if !trans.hasNamespace then .noNamespaceError
  else if !status then .storeFailed
  else if rolled_back then .aborted
  else .stored

/-- `act_store_commit`: returns the commit status, the value written to
`*keep` (`none` when the C code leaves it untouched) and the log line
emitted (`none` when the function returns without logging). -/
def act_store_commit (trans : StoreTransaction) (commit_ok : Bool) :
    Bool × Option Bool × Option StoreLog :=
  if trans.disabled then
    (true, some false, some (act_store_log_status trans false true))
  else if trans.redundant then
    (true, none, some (act_store_log_status trans false true))
  else if !trans.hasNamespace then (false, none, none)
  else if !trans.hasBox then (false, none, none)
  else
    (commit_ok, some (!commit_ok),
      some (act_store_log_status trans false commit_ok))

end Pigeonhole

/-- Claim C8: when the script environment supplies no mail namespaces,
the store transaction is marked disabled and `act_store_start` returns
true; `act_store_execute` performs no mailbox operation and returns true;
and `act_store_commit` logs the store as skipped and returns success
(cancelling the implicit keep), whatever the storage oracles say. -/
theorem Pigeonhole.store_disabled_without_namespaces
    (default_mailbox : Option String) (ctx : Option String)
    (open_outcome : OpenOutcome) (copy_ok commit_ok : Bool) :
    (act_store_start false default_mailbox ctx open_outcome).1.disabled =
        true ∧
    (act_store_start false default_mailbox ctx open_outcome).2 = true ∧
    act_store_execute
        (act_store_start false default_mailbox ctx open_outcome).1
        copy_ok =
      (true, []) ∧
    act_store_commit
        (act_store_start false default_mailbox ctx open_outcome).1
        commit_ok =
      (true, some false, some StoreLog.skipped) := by
  refine ⟨rfl, rfl, rfl, rfl⟩

namespace Pigeonhole

/-! ## The `:regex` match type (`mcht_regex_match`)

POSIX `regexec` is external: its outcome enters the model as an oracle —
`none` for no match, or the `pmatch` array of capture-group ranges
(`none` for a group with `rm_so == -1`). -/

/-- The substring `val[so, eo)` appended for a matched capture group. -/
def captureOf (val : String) (range : Nat × Nat) : String :=
  String.mk ((val.data.drop range.1).take (range.2 - range.1))

/-- Modelled from the spec: the builder operations
`sieve_match_values_start` (empty set), `sieve_match_values_add` (append
a capture) and `sieve_match_values_skip` (advance the index by the given
count) are not under `src/`; the spec's match-value protocol says
captures are appended in order and skipped captures advance the index.
Committing atomically replaces the interpreter's current set with the
builder. -/
def sieve_match_values_commit (builder : List (Option String)) :
    List (Option String) :=
  builder

/-- The capture loop of `mcht_regex_match`: matched groups are appended
in order; unmatched groups increment the `skipped` counter, which is
flushed as an index skip before the next matched group. -/
def mchtRegexValuesLoop (val : String) :
    List (Option (Nat × Nat)) → Nat → List (Option String) →
      List (Option String)
  | [], _, acc => acc
  | none :: rest, skipped, acc =>
    mchtRegexValuesLoop val rest (skipped + 1) acc
  | some range :: rest, skipped, acc =>
    mchtRegexValuesLoop val rest 0
      (acc ++ List.replicate skipped none ++ [some (captureOf val range)])

/-- `mcht_regex_match` restricted to its match-value behaviour: on a
successful `regexec` with match values enabled, a fresh match-value set
is built from the capture groups and committed, replacing the previous
set; on failure (or with match values disabled) the previous set is left
intact.  The first component is the match result returned to the caller. -/
def mcht_regex_match (match_values_enabled : Bool)
    (regexec_result : Option (List (Option (Nat × Nat)))) (val : String)
    (prev_values : List (Option String)) :
    Bool × List (Option String) :=
  match regexec_result with
  | none => (false, prev_values)
  | some pmatch =>
    if match_values_enabled then
      (true, sieve_match_values_commit (mchtRegexValuesLoop val pmatch 0 []))
    else
      (true, prev_values)

/-- Drop the trailing unmatched groups: the capture loop never flushes a
skip that is not followed by a matched group. -/
def dropTrailingNone : List (Option α) → List (Option α)
  | [] => []
  | none :: rest =>
    match dropTrailingNone rest with
    | [] => []
    | y :: r => none :: y :: r
  | some a :: rest => some a :: dropTrailingNone rest

theorem dropTrailingNone_none_cons (l : List (Option String)) :
    dropTrailingNone ((none : Option String) :: l) =
      if dropTrailingNone l = [] then []
      else none :: dropTrailingNone l := by
  cases hr : dropTrailingNone l with
  | nil => rw [dropTrailingNone, hr, if_pos rfl]
  | cons y r => rw [dropTrailingNone, hr, if_neg (by simp)]

theorem mchtRegexValuesLoop_eq (val : String) :
    ∀ (pm : List (Option (Nat × Nat))) (skipped : Nat)
      (acc : List (Option String)),
      mchtRegexValuesLoop val pm skipped acc =
        if dropTrailingNone (pm.map (Option.map (captureOf val))) = []
        then acc
        else acc ++ List.replicate skipped none ++
          dropTrailingNone (pm.map (Option.map (captureOf val)))
  | [], skipped, acc => by
    simp [mchtRegexValuesLoop, dropTrailingNone]
  | none :: rest, skipped, acc => by
    rw [mchtRegexValuesLoop, mchtRegexValuesLoop_eq val rest]
    simp only [List.map_cons]
    rw [show Option.map (captureOf val) none = (none : Option String)
      from rfl]
    rw [dropTrailingNone_none_cons]
    by_cases h : dropTrailingNone (rest.map (Option.map (captureOf val))) = []
    · rw [if_pos h, if_pos (by rw [if_pos h])]
    · rw [if_neg h, if_neg (by rw [if_neg h]; simp)]
      rw [if_neg h]
      rw [show List.replicate (skipped + 1) (none : Option String) =
        List.replicate skipped none ++ [none] from List.replicate_succ' _ _]
      simp
  | some range :: rest, skipped, acc => by
    rw [mchtRegexValuesLoop, mchtRegexValuesLoop_eq val rest]
    simp only [List.map_cons]
    rw [show Option.map (captureOf val) (some range) =
      some (captureOf val range) from rfl]
    rw [show dropTrailingNone (some (captureOf val range) ::
        rest.map (Option.map (captureOf val))) =
        some (captureOf val range) ::
          dropTrailingNone (rest.map (Option.map (captureOf val)))
      from rfl]
    by_cases h : dropTrailingNone (rest.map (Option.map (captureOf val))) = []
    · rw [if_pos h, h,
        if_neg (show ¬(some (captureOf val range) ::
          ([] : List (Option String)) = []) by simp)]
    · rw [if_neg h,
        if_neg (show ¬(some (captureOf val range) ::
          dropTrailingNone (rest.map (Option.map (captureOf val))) = [])
          by simp)]
      simp

end Pigeonhole

/-- Claim C9: with match values enabled, `mcht_regex_match` changes the
interpreter's match-value set only when `regexec` reports a match; on
success the committed set consists of the matched capture groups in
order, with unmatched groups advancing the index (trailing unmatched
groups are never flushed), and on failure the previously committed
values are left intact. -/
theorem Pigeonhole.regex_match_values_spec (match_values_enabled : Bool)
    (regexec_result : Option (List (Option (Nat × Nat)))) (val : String)
    (prev_values : List (Option String)) :
    mcht_regex_match match_values_enabled regexec_result val prev_values =
      (regexec_result.isSome,
        match regexec_result with
        | none => prev_values
        | some pmatch =>
          if match_values_enabled then
            dropTrailingNone (pmatch.map (Option.map (captureOf val)))
          else prev_values) := by
  cases regexec_result with
  | none => rfl
  | some pmatch =>
    unfold mcht_regex_match
    cases match_values_enabled with
    | false => simp
    | true =>
      simp only [if_pos rfl, Option.isSome_some, sieve_match_values_commit]
      rw [mchtRegexValuesLoop_eq]
      by_cases h : dropTrailingNone
          (pmatch.map (Option.map (captureOf val))) = []
      · rw [if_pos h, h]
        simp
      · rw [if_neg h]
        simp
